import Mathlib

/-!
Verification of the document segmentation and semantic-linking pipeline of
DocumentationLLM, as a shallow embedding of
`src/documentationllm/agents/semantic_linking_agent.py` and
`src/documentationllm/agents/parsing_agent.py`.

Python dicts that the code inspects by key are modelled as structures; a key
whose presence is tested with `in` is modelled as an `Option` field.  JSON
values (the payload returned by the reasoning service) are modelled by the
inductive `JVal`; a response body that fails `json.loads` is modelled as
`none`.  Exceptions are modelled by `Except`: a Python function that may raise
returns `Except Unit α` (or `Except Context Context` for `run`, whose `except`
branch mutates the context before re-raising).
-/

/-- A miniature JSON value, standing for the Python objects produced by
`json.loads`.  Numbers are modelled as integers; none of the verified
behaviour inspects numeric payloads. -/
inductive JVal where
  | null : JVal
  | bool (b : Bool) : JVal
  | num (n : Int) : JVal
  | str (s : String) : JVal
  | arr (xs : List JVal) : JVal
  | obj (fields : List (String × JVal)) : JVal

/-- `isinstance(v, dict)`. -/
def JVal.isDict : JVal → Bool
  | .obj _ => true
  | _ => false

/-- `"k" in v` for a Python dict `v` (false on non-dicts). -/
def JVal.hasKey (k : String) : JVal → Bool
  | .obj fields => fields.any (fun f => f.1 = k)
  | _ => false

namespace SemanticLinkingAgent

/-- One entry of a section's `code` list, as built by
`SemanticLinkingAgent._extract_sections`:
`{"content": ..., "language": item.get("language",""), "metadata": item.get("metadata",{})}`. -/
structure CodeItem where
  content : String
  language : String
  metadata : JVal

/-- One item of `parsed_document["content"]`.  The Python items are dicts with
a `"type"` field; `other` stands for an item whose type is neither `"text"`
nor `"code"` (silently skipped by the loop), and `malformed` stands for an
item dict on which the field accesses `item["type"]` / `item["content"]`
raise `KeyError`. -/
inductive ContentItem where
  | text (content : String) : ContentItem
  | code (content : String) (language : String) (metadata : JVal) : ContentItem
  | other (type : String) (content : String) : ContentItem
  | malformed : ContentItem

/-- A `{"text": [...], "code": [...]}` section dict.  The `semantic_links`
field models the presence of the `"semantic_links"` key (set only by
`_process_section` on success). -/
structure LinkSection where
  text : List String
  code : List CodeItem
  semantic_links : Option JVal

/-- The accumulator `current_section = {"text": [], "code": []}`. -/
def emptySection : LinkSection := { text := [], code := [], semantic_links := none }

/-- The loop body of `SemanticLinkingAgent._extract_sections`, written as
structural recursion over the remaining items; `cur` is the mutable
`current_section` and the emitted list is returned front-first, so a flush
conses the flushed copy onto the sections produced by the rest of the stream.
After the loop, a non-empty accumulator is appended (`if current_section["text"]
or current_section["code"]`).  A `malformed` item raises (`KeyError`), modelled
as `Except.error`. -/
def extractGo (cur : LinkSection) : List ContentItem → Except Unit (List LinkSection)
  | [] =>
      .ok (if !cur.text.isEmpty || !cur.code.isEmpty then [cur] else [])
  | .text c :: rest =>
      if !cur.code.isEmpty && !cur.text.isEmpty then
        -- flush: `sections.append(current_section.copy())`, fresh accumulator,
        -- then `current_section["text"].append(item["content"])`
        (extractGo { emptySection with text := [c] } rest).map (cur :: ·)
      else
        extractGo { cur with text := cur.text ++ [c] } rest
  | .code c lang md :: rest =>
      extractGo { cur with code := cur.code ++ [⟨c, lang, md⟩] } rest
  | .other _ _ :: rest =>
      extractGo cur rest
  | .malformed :: _ =>
      .error ()

/-- `SemanticLinkingAgent._extract_sections`, over the document's
`content` list. -/
def extract_sections (content : List ContentItem) : Except Unit (List LinkSection) :=
  extractGo emptySection content

/-- The f-string template of `_prepare_prompt`, with the joined text and the
joined fenced code blocks spliced in. -/
def promptTemplate (text code : String) : String :=
  "Analise o seguinte texto explicativo e blocos de código, e crie vínculos semânticos precisos entre eles.\n        \nTexto explicativo:\n"
  ++ text
  ++ "\n\nBlocos de código:\n"
  ++ code
  ++ "\n\nGere um JSON que contenha:\n1. Uma lista de conceitos chave do texto\n2. Para cada conceito, identifique as linhas de código relacionadas\n3. Uma breve explicação de como o código implementa cada conceito\n4. Metadados adicionais que ajudem a entender a relação texto-código\n\nFormato esperado:\n\x7b\n    \"concepts\": [\n        \x7b\n            \"name\": \"nome do conceito\",\n            \"text_references\": [\"trecho do texto\"],\n            \"code_references\": [\"trecho do código\"],\n            \"explanation\": \"explicação da relação\",\n            \"metadata\": \x7b\n                \"confidence\": float,\n                \"type\": \"implementation|example|reference\"\n            \x7d\n        \x7d\n    ]\n\x7d"

/-- `SemanticLinkingAgent._prepare_prompt`: newline-join the text items,
fence each code block with its language, join with blank lines, splice into
the template. -/
def prepare_prompt (s : LinkSection) : String :=
  let text := String.intercalate "\n" s.text
  let code_blocks := s.code.map (fun block =>
    "```" ++ block.language ++ "\n" ++ block.content ++ "\n```")
  let code := String.intercalate "\n\n" code_blocks
  promptTemplate text code

/-- The reasoning service, abstracting `openai.chat.completions.create`
applied to the user prompt: `Except.error` models a raised exception, and on
a normal return `some v` / `none` model a message content that parses to the
JSON value `v` / fails to parse (a missing content or empty `choices`, which
would also raise inside `_parse_openai_response`, is likewise modelled by
`none`, landing in the same recovery branch). -/
def Service : Type := String → Except Unit (Option JVal)

/-- The `try` body of `_parse_openai_response`: `json.loads` failure is
`none`; a parsed value that is not a dict or lacks a top-level
`"concepts"` key raises `ValueError`. -/
def parseInner (content : Option JVal) : Except Unit JVal :=
  match content with
  | none => .error ()
  | some v =>
      if v.isDict && v.hasKey "concepts" then .ok v
      else .error ()

/-- `SemanticLinkingAgent._parse_openai_response`: both `except` branches
recover with `{"concepts": []}`; the function is total (never re-raises). -/
def parse_openai_response (content : Option JVal) : JVal :=
  match parseInner content with
  | .ok v => v
  | .error _ => JVal.obj [("concepts", JVal.arr [])]

/-- `SemanticLinkingAgent._process_section`, instrumented: the second
component records the prompts actually sent to the reasoning service, so
"no service call was made" is expressible as `= []`.  Mirrors the source:
a section with empty text or empty code is returned unchanged with no call;
an exception from the service is caught and the original section returned;
on success the rebuilt dict has exactly the keys `text`, `code`,
`semantic_links`. -/
def process_sectionT (svc : Service) (s : LinkSection) : LinkSection × List String :=
  if s.text.isEmpty || s.code.isEmpty then (s, [])
  else
    let prompt := prepare_prompt s
    match svc prompt with
    | .error _ => (s, [prompt])
    | .ok content =>
        ({ text := s.text, code := s.code,
           semantic_links := some (parse_openai_response content) }, [prompt])

/-- `SemanticLinkingAgent._process_section` (result only). -/
def process_section (svc : Service) (s : LinkSection) : LinkSection :=
  (process_sectionT svc s).1

/-- A parsed document, as consumed by `process_document`: the dict accesses
`get("path","")`, `get("metadata",{})`, `get("content",[])` are folded into
total fields; `semantic_links` models the (normally absent) presence of a
`"semantic_links"` key on the input dict, which `run`'s statistics test. -/
structure ParsedDoc where
  path : String
  metadata : JVal
  content : List ContentItem
  semantic_links : Option JVal

/-- The document dict built by `process_document`, with exactly the keys
`metadata`, `linked_sections`, `original_path`, `processing_info` (the
`processing_info` dict is `{"model": model, "temperature": temperature}`;
the float temperature is irrelevant to every verified property and is not
carried). -/
structure LinkedDoc where
  metadata : JVal
  linked_sections : List LinkSection
  original_path : String
  model : String

/-- `SemanticLinkingAgent.process_document`: extract sections (whose
`KeyError` on a malformed item propagates), link each one in order, rebuild
the document.  The enclosing `try` of the source logs and re-raises, so the
error behaviour is unchanged. -/
def process_document (model : String) (svc : Service) (doc : ParsedDoc) :
    Except Unit LinkedDoc :=
  match extract_sections doc.content with
  | .error e => .error e
  | .ok sections =>
      .ok { metadata := doc.metadata,
            linked_sections := sections.map (process_section svc),
            original_path := doc.path,
            model := model }

/-- An element of `linked_documents`: either the document rebuilt by
`process_document`, or, after a caught per-document exception, the original
input document. -/
inductive OutDoc where
  | processed (d : LinkedDoc) : OutDoc
  | original (d : ParsedDoc) : OutDoc

/-- `"semantic_links" in d` for an element of `linked_documents`: a document
built by `process_document` never has that top-level key (its keys are
`metadata`, `linked_sections`, `original_path`, `processing_info`); for an
original input document it is the presence of the key on the input dict. -/
def OutDoc.hasSemanticLinksKey : OutDoc → Bool
  | .processed _ => false
  | .original d => d.semantic_links.isSome

/-- The `semantic_linking_stats` dict (the wall-clock `timestamp` string is
not carried). -/
structure RunStats where
  total_documents : Nat
  successful_documents : Nat
  failed_documents : Nat
  model_used : String

/-- The pipeline context, restricted to the keys `run` reads and writes.
`Option` fields model keys that may be absent; a missing or `None`
`parsed_documents` entry behaves like `[]` under the source's falsiness
check `not self.context.get("parsed_documents")`, so it is modelled as the
empty list. -/
structure Context where
  parsed_documents : List ParsedDoc
  linked_documents : List OutDoc
  semantic_linking_completed : Option Bool
  semantic_linking_stats : Option RunStats

/-- The body of the per-document loop in `run`: `try: ... append
process_document(doc)  except Exception: ... append the original doc`. -/
def linkDocument (model : String) (svc : Service) (doc : ParsedDoc) : OutDoc :=
  match process_document model svc doc with
  | .ok d => OutDoc.processed d
  | .error _ => OutDoc.original doc

/-- `SemanticLinkingAgent.run`.  The `Except.error` case models the
re-raised exception of the outer `except`, carrying the mutated context
(`semantic_linking_completed = False`); with well-formed context the only
statement in the `try` that can raise uncaught is the explicit
`ValueError` on an empty `parsed_documents` (each document's processing is
wrapped in its own `try/except Exception`).  On success the context is
updated with `linked_documents`, `semantic_linking_completed = True` and the
statistics, whose success test is `"semantic_links" in d` on each output
document. -/
def run (model : String) (svc : Service) (ctx : Context) : Except Context Context :=
  if ctx.parsed_documents.isEmpty then
    .error { ctx with semantic_linking_completed := some false }
  else
    let linked := ctx.parsed_documents.map (linkDocument model svc)
    .ok { ctx with
          linked_documents := linked,
          semantic_linking_completed := some true,
          semantic_linking_stats := some {
            total_documents := ctx.parsed_documents.length,
            successful_documents :=
              (linked.filter (fun d => d.hasSemanticLinksKey)).length,
            failed_documents :=
              (linked.filter (fun d => !d.hasSemanticLinksKey)).length,
            model_used := model } }

/-- The text items of a content stream, in order. -/
def textItems : List ContentItem → List String
  | [] => []
  | .text c :: rest => c :: textItems rest
  | _ :: rest => textItems rest

/-- The code items of a content stream, in order, as the partitioner
records them. -/
def codeItems : List ContentItem → List CodeItem
  | [] => []
  | .code c lang md :: rest => ⟨c, lang, md⟩ :: codeItems rest
  | _ :: rest => codeItems rest

/-- The stream item is typed `text` or `code`. -/
def isTextOrCode : ContentItem → Bool
  | .text _ => true
  | .code _ _ _ => true
  | _ => false

/-- In-order concatenation of the `text` lists of the emitted sections. -/
def joinedTexts : List LinkSection → List String
  | [] => []
  | s :: rest => s.text ++ joinedTexts rest

/-- In-order concatenation of the `code` lists of the emitted sections. -/
def joinedCodes : List LinkSection → List CodeItem
  | [] => []
  | s :: rest => s.code ++ joinedCodes rest

/-- A well-formed reasoning-service response carrying one concept. -/
def conceptsResponse : JVal :=
  JVal.obj [("concepts", JVal.arr [JVal.obj [("name", JVal.str "Addition Function")]])]

/-- A reasoning service that always answers with `conceptsResponse`. -/
def alwaysConcepts : Service := fun _ => .ok (some conceptsResponse)

/-- The parsed document of the repository's own
`tests/test_semantic_linking_agent.py` fixture. -/
def sampleDoc : ParsedDoc :=
  { path := "test/doc1.md", metadata := JVal.obj [],
    content := [.text "This is a test function that adds two numbers.",
                .code "def add(a, b):\n    return a + b" "python" (JVal.obj [])],
    semantic_links := none }

/-- The context of that fixture (one parsed document). -/
def sampleCtx : Context := ⟨[sampleDoc], [], none, none⟩

/-- The single linked section the run produces: links populated. -/
def sampleLinkedSection : LinkSection :=
  ⟨["This is a test function that adds two numbers."],
   [⟨"def add(a, b):\n    return a + b", "python", JVal.obj []⟩],
   some conceptsResponse⟩

end SemanticLinkingAgent

namespace ParsingAgent

/-- One entry of a section's `code_blocks` list: `{'language': ..., 'code': ...}`. -/
structure CodeBlock where
  language : String
  code : String

/-- One tag of the `soup.find_all(['h1',...,'h6','p','pre','code'])` stream
consumed by `ParsingAgent._extract_sections`.  `heading lv t` is an `h{lv}`
tag with stripped text `t` (so `lv ∈ 1..6` for real streams, though nothing
below needs that bound); `pre` covers both `pre` and `code` tags with their
resolved language and stripped text; `p` is a paragraph with stripped
text. -/
inductive Tag where
  | heading (level : Nat) (title : String) : Tag
  | pre (language : String) (code : String) : Tag
  | p (text : String) : Tag

/-- A `DocumentSection` node.  `mk title level content code_blocks
subsections metadata start_line end_line`; the source always constructs it
with `metadata = {}` and `start_line = end_line = 0` (line tracking is a
TODO in the source). -/
inductive DocumentSection where
  | mk : String → Nat → String → List CodeBlock → List DocumentSection →
      JVal → Nat → Nat → DocumentSection

def DocumentSection.title : DocumentSection → String
  | .mk t _ _ _ _ _ _ _ => t

def DocumentSection.level : DocumentSection → Nat
  | .mk _ lv _ _ _ _ _ _ => lv

def DocumentSection.content : DocumentSection → String
  | .mk _ _ c _ _ _ _ _ => c

def DocumentSection.code_blocks : DocumentSection → List CodeBlock
  | .mk _ _ _ cbs _ _ _ _ => cbs

def DocumentSection.subsections : DocumentSection → List DocumentSection
  | .mk _ _ _ _ subs _ _ _ => subs

/-- A section node without its `subsections` field: one element of the chain
of open sections leading to the mutable `current_section` pointer.

In the source, `current_section` is always the most recently constructed
node; a node acquires children only while it is current, and gains at most
one child before the pointer moves to that child forever.  The tree rooted
at the last top-level section is therefore a chain
`root → child → ... → current_section`, represented here root-first as a
`List FlatSec` ("spine"), whose last element is `current_section`. -/
structure FlatSec where
  title : String
  level : Nat
  content : String
  code_blocks : List CodeBlock

/-- The loop state of `ParsingAgent._extract_sections`: the top-level
`sections` whose construction has finished (a new top-level heading never
touches them again) plus the spine of the tree still under construction.
An empty spine is `current_section = None`. -/
structure PState where
  sections : List DocumentSection
  spine : List FlatSec

/-- Rebuild the tree a spine denotes: each element owns the next as its
single subsection; the constant `metadata = {}` and the zero line bounds
come from the constructor call in the source. -/
def spineTree : List FlatSec → List DocumentSection
  | [] => []
  | f :: rest =>
      [DocumentSection.mk f.title f.level f.content f.code_blocks
        (spineTree rest) (JVal.obj []) 0 0]

/-- Apply `g` to the last element of the spine, i.e. mutate
`current_section`; the empty case is the `elif current_section:` guard
dropping content that precedes the first heading. -/
def modifyLast (g : FlatSec → FlatSec) : List FlatSec → List FlatSec
  | [] => []
  | [f] => [g f]
  | f :: rest => f :: modifyLast g rest

/-- One iteration of the tag loop in `ParsingAgent._extract_sections`.

Heading at level `lv`: the source builds a fresh `DocumentSection`; if
there is no current section or `lv ≤ current_section.level` it appends it
to the top-level list and makes it current (here: the finished spine is
closed into `sections` and a new one-element spine starts), otherwise it
appends it to `current_section.subsections` and makes it current (here:
push onto the spine).  A `pre`/`code` tag appends
`{'language':…, 'code':…}` to `current_section.code_blocks`; a `p` tag
appends its stripped text plus a newline to `current_section.content`
unless the text is empty. -/
def step (st : PState) (tag : Tag) : PState :=
  match tag with
  | .heading lv title =>
      let newSec : FlatSec := ⟨title, lv, "", []⟩
      match st.spine.getLast? with
      | none => { sections := st.sections ++ spineTree st.spine, spine := [newSec] }
      | some cur =>
          if lv ≤ cur.level then
            { sections := st.sections ++ spineTree st.spine, spine := [newSec] }
          else
            { st with spine := st.spine ++ [newSec] }
  | .pre lang code =>
      let addCode := fun (f : FlatSec) =>
        { f with code_blocks := f.code_blocks ++ [⟨lang, code⟩] }
      { st with spine := modifyLast addCode st.spine }
  | .p text =>
      let addText := fun (f : FlatSec) =>
        if text.isEmpty then f else { f with content := f.content ++ text ++ "\n" }
      { st with spine := modifyLast addText st.spine }

/-- `ParsingAgent._extract_sections`: fold the tag stream, then the tree
still under construction joins the top-level list (in the source it was
appended to `sections` when its root heading arrived; here its mutation is
completed first). -/
def extract_sections (tags : List Tag) : List DocumentSection :=
  let st := tags.foldl step ⟨[], []⟩
  st.sections ++ spineTree st.spine

/-- The parent-child level invariant: every subsection of a node has a
strictly greater `level` than the node, recursively. -/
inductive LevelsOk : DocumentSection → Prop where
  | mk : ∀ (t : String) (lv : Nat) (c : String) (cbs : List CodeBlock)
      (subs : List DocumentSection) (m : JVal) (sl el : Nat),
      (∀ child ∈ subs, lv < child.level) →
      (∀ child ∈ subs, LevelsOk child) →
      LevelsOk (.mk t lv c cbs subs m sl el)

/-- Strictly increasing heading levels along the chain of open sections. -/
def LevelChain : List FlatSec → Prop :=
  List.Chain' (fun a b => a.level < b.level)

/-- The loop invariant of the reducer: every finished top-level tree
satisfies the level invariant, and the open chain is strictly increasing. -/
def Inv (st : PState) : Prop :=
  (∀ s ∈ st.sections, LevelsOk s) ∧ LevelChain st.spine

end ParsingAgent

namespace SemanticLinkingAgent

/-- C5: the section partitioner flushes the accumulator exactly when a text
item arrives while the accumulator already holds at least one code item and
at least one text item (the arriving text item then starts the fresh
accumulator); a code item never triggers a flush; a non-empty accumulator is
emitted at end of stream; and the stream
`[text "A", code "c1", text "B", code "c2"]` partitions into exactly the two
groups `{text ["A"], code ["c1"]}` and `{text ["B"], code ["c2"]}`. -/
theorem partition_flush_rule :
    (∀ (cur : LinkSection) (c : String) (rest : List ContentItem),
      cur.code.isEmpty = false → cur.text.isEmpty = false →
      extractGo cur (.text c :: rest) =
        (extractGo { text := [c], code := [], semantic_links := none } rest).map
          (List.cons cur)) ∧
    (∀ (cur : LinkSection) (c : String) (rest : List ContentItem),
      cur.code.isEmpty = true ∨ cur.text.isEmpty = true →
      extractGo cur (.text c :: rest) =
        extractGo { text := cur.text ++ [c], code := cur.code,
                    semantic_links := cur.semantic_links } rest) ∧
    (∀ (cur : LinkSection) (c lang : String) (md : JVal) (rest : List ContentItem),
      extractGo cur (.code c lang md :: rest) =
        extractGo { text := cur.text, code := cur.code ++ [⟨c, lang, md⟩],
                    semantic_links := cur.semantic_links } rest) ∧
    (∀ cur : LinkSection, cur.text.isEmpty = false ∨ cur.code.isEmpty = false →
      extractGo cur [] = .ok [cur]) ∧
    extract_sections
        [.text "A", .code "c1" "" (JVal.obj []), .text "B", .code "c2" "" (JVal.obj [])] =
      .ok [⟨["A"], [⟨"c1", "", JVal.obj []⟩], none⟩,
           ⟨["B"], [⟨"c2", "", JVal.obj []⟩], none⟩] := by
  refine ⟨?_, ?_, ?_, ?_, rfl⟩
  · intro cur c rest h1 h2
    simp [extractGo, emptySection, h1, h2]
  · intro cur c rest h
    rcases h with h | h <;> simp [extractGo, h]
  · intro cur c lang md rest
    simp [extractGo]
  · intro cur h
    rcases h with h | h <;> simp [extractGo, h]

/-- Witness for the flush rule at a concrete accumulator and stream. -/
theorem partition_flush_rule_witness :
    extractGo ⟨["t"], [⟨"c", "", JVal.obj []⟩], none⟩ [.text "u"] =
      (extractGo { text := ["u"], code := [], semantic_links := none } []).map
        (List.cons ⟨["t"], [⟨"c", "", JVal.obj []⟩], none⟩) :=
  partition_flush_rule.1 ⟨["t"], [⟨"c", "", JVal.obj []⟩], none⟩ "u" [] rfl rfl

/-- C6: a section with an empty text list or an empty code list is returned
by `_process_section` with all fields identical to the input, and no
reasoning-service call is made (the recorded prompt list is empty). -/
theorem process_section_skips_degenerate (svc : Service) (s : LinkSection)
    (h : s.text = [] ∨ s.code = []) :
    process_sectionT svc s = (s, []) := by
  rcases h with h | h <;> simp [process_sectionT, h]

/-- Witness: a code-only section passes through a service that always raises
without being touched or sent. -/
theorem process_section_skips_degenerate_witness :
    process_sectionT (fun _ => .error ()) ⟨[], [⟨"x", "", JVal.obj []⟩], none⟩ =
      (⟨[], [⟨"x", "", JVal.obj []⟩], none⟩, []) :=
  process_section_skips_degenerate _ _ (Or.inl rfl)

/-- C7: a response whose content fails to parse as JSON, or parses to a value
that is not a dict with a top-level `"concepts"` key, makes
`_parse_openai_response` return `{"concepts": []}`; the function is total, so
no exception reaches the caller. -/
theorem parse_response_recovers (content : Option JVal)
    (h : content = none ∨
      ∃ v, content = some v ∧ (v.isDict && v.hasKey "concepts") = false) :
    parse_openai_response content = JVal.obj [("concepts", JVal.arr [])] := by
  rcases h with h | ⟨v, hv, hbad⟩ <;> simp [parse_openai_response, parseInner, *]

/-- Witness: a string content (e.g. non-JSON text parsed to a JSON string, or
any non-dict value) recovers to the empty concept list. -/
theorem parse_response_recovers_witness :
    parse_openai_response (some (JVal.str "invalid")) =
      JVal.obj [("concepts", JVal.arr [])] :=
  parse_response_recovers _ (Or.inr ⟨_, rfl, rfl⟩)

end SemanticLinkingAgent

namespace SemanticLinkingAgent

/-- Partition completeness, generalised over the running accumulator. -/
theorem extractGo_partition (items : List ContentItem) :
    ∀ cur : LinkSection, (∀ i ∈ items, isTextOrCode i = true) →
    ∃ secs, extractGo cur items = .ok secs ∧
      joinedTexts secs = cur.text ++ textItems items ∧
      joinedCodes secs = cur.code ++ codeItems items := by
  induction items with
  | nil =>
      intro cur _
      rcases cur with ⟨t, cd, sl⟩
      cases t <;> cases cd <;>
        simp [extractGo, joinedTexts, joinedCodes, textItems, codeItems]
  | cons i rest ih =>
      intro cur h
      have hrest : ∀ j ∈ rest, isTextOrCode j = true :=
        fun j hj => h j (List.mem_cons_of_mem _ hj)
      cases i with
      | text c =>
          by_cases hcond : (!cur.code.isEmpty && !cur.text.isEmpty) = true
          · obtain ⟨secs, hs, ht, hc2⟩ := ih ⟨[c], [], none⟩ hrest
            refine ⟨cur :: secs, ?_, ?_, ?_⟩
            · simp [extractGo, hcond, emptySection, hs, Except.map]
            · simp [joinedTexts, ht, textItems]
            · simp [joinedCodes, hc2, codeItems]
          · have hcond' : (!cur.code.isEmpty && !cur.text.isEmpty) = false := by
              simpa using hcond
            obtain ⟨secs, hs, ht, hc2⟩ := ih { cur with text := cur.text ++ [c] } hrest
            refine ⟨secs, ?_, ?_, ?_⟩
            · simp [extractGo, hcond', hs]
            · rw [ht]; simp [textItems]
            · simpa [codeItems] using hc2
      | code c lang md =>
          obtain ⟨secs, hs, ht, hc2⟩ := ih { cur with code := cur.code ++ [⟨c, lang, md⟩] } hrest
          refine ⟨secs, ?_, ?_, ?_⟩
          · simp [extractGo, hs]
          · simpa [textItems] using ht
          · rw [hc2]; simp [codeItems]
      | other ty c =>
          have := h _ (List.mem_cons_self _ _)
          simp [isTextOrCode] at this
      | malformed =>
          have := h _ (List.mem_cons_self _ _)
          simp [isTextOrCode] at this

/-- C4: for a stream of items each typed `text` or `code`, the partitioner
drops and duplicates nothing: the in-order concatenation of the emitted
sections' `text` lists is exactly the stream's text items, and likewise for
`code`. -/
theorem partition_preserves_stream (content : List ContentItem)
    (h : ∀ i ∈ content, isTextOrCode i = true) :
    ∃ secs, extract_sections content = .ok secs ∧
      joinedTexts secs = textItems content ∧
      joinedCodes secs = codeItems content := by
  obtain ⟨secs, hs, ht, hc⟩ := extractGo_partition content emptySection h
  exact ⟨secs, hs, by simpa [emptySection] using ht, by simpa [emptySection] using hc⟩

/-- Witness: completeness on a concrete stream that opens with code and ends
with trailing text. -/
theorem partition_preserves_stream_witness :
    ∃ secs,
      extract_sections
          [ContentItem.code "c0" "py" (JVal.obj []), .text "A",
           .code "c1" "" (JVal.obj []), .text "B"] = .ok secs ∧
      joinedTexts secs =
        textItems
          [ContentItem.code "c0" "py" (JVal.obj []), .text "A",
           .code "c1" "" (JVal.obj []), .text "B"] ∧
      joinedCodes secs =
        codeItems
          [ContentItem.code "c0" "py" (JVal.obj []), .text "A",
           .code "c1" "" (JVal.obj []), .text "B"] :=
  partition_preserves_stream _ (by decide)

end SemanticLinkingAgent

namespace SemanticLinkingAgent

/-- The successful shape of `run`: on a non-empty document list the context
comes back with the mapped `linked_documents` and the statistics. -/
theorem run_ok (model : String) (svc : Service) (ctx : Context)
    (hne : ctx.parsed_documents ≠ []) :
    run model svc ctx = .ok
      { ctx with
        linked_documents := ctx.parsed_documents.map (linkDocument model svc),
        semantic_linking_completed := some true,
        semantic_linking_stats := some {
          total_documents := ctx.parsed_documents.length,
          successful_documents :=
            ((ctx.parsed_documents.map (linkDocument model svc)).filter
              (fun d => d.hasSemanticLinksKey)).length,
          failed_documents :=
            ((ctx.parsed_documents.map (linkDocument model svc)).filter
              (fun d => !d.hasSemanticLinksKey)).length,
          model_used := model } } := by
  have hF : ctx.parsed_documents.isEmpty = false := by
    rcases hh : ctx.parsed_documents with _ | ⟨d, ds⟩
    · exact absurd hh hne
    · simp [hh]
  simp [run, hF]

/-- C3: `run` on `N` parsed documents returns `linked_documents` of length
exactly `N`, a document whose processing raises is replaced by its original
unlinked form at the same index, and the emitted statistics satisfy
`successful_documents + failed_documents = N` with `total_documents = N`. -/
theorem run_batch_invariant (model : String) (svc : Service) (ctx : Context)
    (hne : ctx.parsed_documents ≠ []) :
    ∃ ctx', run model svc ctx = .ok ctx' ∧
      ctx'.linked_documents.length = ctx.parsed_documents.length ∧
      (∀ (i : Nat) (hi : i < ctx.parsed_documents.length)
          (hi' : i < ctx'.linked_documents.length),
        process_document model svc (ctx.parsed_documents.get ⟨i, hi⟩) = .error () →
        ctx'.linked_documents.get ⟨i, hi'⟩ =
          .original (ctx.parsed_documents.get ⟨i, hi⟩)) ∧
      ∃ st, ctx'.semantic_linking_stats = some st ∧
        st.total_documents = ctx.parsed_documents.length ∧
        st.successful_documents + st.failed_documents =
          ctx.parsed_documents.length := by
  refine ⟨_, run_ok model svc ctx hne, ?_, ?_, ?_⟩
  · simp
  · intro i hi hi' herr
    simp only [List.get_eq_getElem] at herr ⊢
    simp only [List.getElem_map]
    simp [linkDocument, herr]
  · refine ⟨_, rfl, rfl, ?_⟩
    have h := List.length_eq_length_filter_add
      (l := ctx.parsed_documents.map (linkDocument model svc))
      (fun d => d.hasSemanticLinksKey)
    simpa using h.symm

/-- Witness for the batch invariant: a single document whose `content` holds
a malformed item (so its processing raises `KeyError`) is replaced by its
original form, and the counters add up. -/
theorem run_batch_invariant_witness :
    ∃ ctx', run "m" (fun _ => .error ())
        ⟨[⟨"p", JVal.obj [], [.malformed], none⟩], [], none, none⟩ = .ok ctx' ∧
      ctx'.linked_documents.length = 1 ∧
      (∀ (i : Nat) (hi : i < 1) (hi' : i < ctx'.linked_documents.length),
        process_document "m" (fun _ => .error ())
            (([⟨"p", JVal.obj [], [.malformed], none⟩] :
              List ParsedDoc).get ⟨i, hi⟩) = .error () →
        ctx'.linked_documents.get ⟨i, hi'⟩ =
          .original (([⟨"p", JVal.obj [], [.malformed], none⟩] :
            List ParsedDoc).get ⟨i, hi⟩)) ∧
      ∃ st, ctx'.semantic_linking_stats = some st ∧
        st.total_documents = 1 ∧
        st.successful_documents + st.failed_documents = 1 :=
  run_batch_invariant "m" (fun _ => .error ())
    ⟨[⟨"p", JVal.obj [], [.malformed], none⟩], [], none, none⟩ (by simp)

/-- C10: `run` raises exactly when `parsed_documents` is missing or empty
(the falsy check of the source), the raised state carries
`semantic_linking_completed = False`, and no other input makes `run`
propagate an exception. -/
theorem run_raises_iff_no_documents (model : String) (svc : Service)
    (ctx : Context) :
    (∀ e, run model svc ctx = .error e →
      ctx.parsed_documents = [] ∧
      e = { ctx with semantic_linking_completed := some false }) ∧
    (ctx.parsed_documents = [] →
      run model svc ctx = .error
        { ctx with semantic_linking_completed := some false }) := by
  constructor
  · intro e he
    by_cases h : ctx.parsed_documents = []
    · refine ⟨h, ?_⟩
      have hthis : run model svc ctx = .error
          { ctx with semantic_linking_completed := some false } := by
        simp [run, h]
      rw [hthis] at he
      injection he with h1
      exact h1.symm
    · exact absurd he (by rw [run_ok model svc ctx h]; simp)
  · intro h
    simp [run, h]

/-- Witness: the empty context raises with the completion flag cleared. -/
theorem run_raises_iff_no_documents_witness :
    run "m" (fun _ => .error ()) ⟨[], [], none, none⟩ =
      .error ⟨[], [], some false, none⟩ :=
  (run_raises_iff_no_documents "m" (fun _ => .error ()) ⟨[], [], none, none⟩).2 rfl

end SemanticLinkingAgent

namespace SemanticLinkingAgent

/-- With a reasoning service that always raises, `_process_section` returns
every section unchanged. -/
theorem process_section_failing (svc : Service) (hsvc : ∀ p, svc p = .error ())
    (s : LinkSection) : process_section svc s = s := by
  by_cases h : (s.text.isEmpty || s.code.isEmpty) = true
  · simp [process_section, process_sectionT, h]
  · simp [process_section, process_sectionT, h, hsvc]

/-- C8: if every reasoning-service call raises, `run` still completes: the
output list has the full input length, every document is present at its
index (either rebuilt around its extracted sections, all returned in their
original unlinked form, or — if section extraction itself raised — the
original document), and the statistics report zero `successful_documents`.
The hypothesis `hdocs` states that the inputs are parsed documents, which
never carry a top-level `"semantic_links"` key. -/
theorem run_isolates_service_failure (model : String) (svc : Service)
    (ctx : Context) (hsvc : ∀ p, svc p = .error ())
    (hdocs : ∀ doc ∈ ctx.parsed_documents, doc.semantic_links = none)
    (hne : ctx.parsed_documents ≠ []) :
    ∃ ctx', run model svc ctx = .ok ctx' ∧
      ctx'.linked_documents.length = ctx.parsed_documents.length ∧
      (∀ (i : Nat) (hi : i < ctx.parsed_documents.length)
          (hi' : i < ctx'.linked_documents.length),
        (match extract_sections (ctx.parsed_documents.get ⟨i, hi⟩).content with
         | .ok secs =>
            ctx'.linked_documents.get ⟨i, hi'⟩ = .processed
              { metadata := (ctx.parsed_documents.get ⟨i, hi⟩).metadata,
                linked_sections := secs,
                original_path := (ctx.parsed_documents.get ⟨i, hi⟩).path,
                model := model }
         | .error _ =>
            ctx'.linked_documents.get ⟨i, hi'⟩ =
              .original (ctx.parsed_documents.get ⟨i, hi⟩))) ∧
      ∃ st, ctx'.semantic_linking_stats = some st ∧
        st.successful_documents = 0 := by
  have hmap : ∀ secs : List LinkSection, secs.map (process_section svc) = secs := by
    intro secs
    induction secs with
    | nil => rfl
    | cons s rest ih => simp [process_section_failing svc hsvc, ih]
  have hdoc : ∀ doc : ParsedDoc,
      process_document model svc doc =
        match extract_sections doc.content with
        | .ok secs => .ok
            { metadata := doc.metadata, linked_sections := secs,
              original_path := doc.path, model := model }
        | .error _ => .error () := by
    intro doc
    rcases hx : extract_sections doc.content with e | secs
    · simp [process_document, hx]
    · simp [process_document, hx, hmap]
  refine ⟨_, run_ok model svc ctx hne, ?_, ?_, ?_⟩
  · simp
  · intro i hi hi'
    simp only [List.get_eq_getElem] at *
    simp only [List.getElem_map]
    rcases hx : extract_sections ctx.parsed_documents[i].content with e | secs
    · simp [linkDocument, hdoc, hx]
    · simp [linkDocument, hdoc, hx]
  · refine ⟨_, rfl, ?_⟩
    have hall : ∀ d ∈ ctx.parsed_documents.map (linkDocument model svc),
        d.hasSemanticLinksKey = false := by
      intro d hd
      obtain ⟨doc, hdm, rfl⟩ := List.mem_map.mp hd
      rcases hx : extract_sections doc.content with e | secs
      · simp [linkDocument, hdoc, hx, OutDoc.hasSemanticLinksKey, hdocs doc hdm]
      · simp [linkDocument, hdoc, hx, OutDoc.hasSemanticLinksKey]
    have : (ctx.parsed_documents.map (linkDocument model svc)).filter
        (fun d => d.hasSemanticLinksKey) = [] := by
      rw [List.filter_eq_nil_iff]
      intro d hd
      simp [hall d hd]
    simp [this]

/-- Witness: one well-formed document through an always-raising service. -/
theorem run_isolates_service_failure_witness :
    ∃ ctx', run "m" (fun _ => .error ())
        ⟨[⟨"p", JVal.obj [], [.text "t", .code "c" "" (JVal.obj [])], none⟩],
         [], none, none⟩ = .ok ctx' ∧
      ctx'.linked_documents.length = 1 ∧
      (∀ (i : Nat) (hi : i < 1)
          (hi' : i < ctx'.linked_documents.length),
        (match extract_sections
            ((([⟨"p", JVal.obj [], [.text "t", .code "c" "" (JVal.obj [])], none⟩] :
              List ParsedDoc).get ⟨i, hi⟩)).content with
         | .ok secs =>
            ctx'.linked_documents.get ⟨i, hi'⟩ = .processed
              { metadata := (([⟨"p", JVal.obj [],
                  [.text "t", .code "c" "" (JVal.obj [])], none⟩] :
                  List ParsedDoc).get ⟨i, hi⟩).metadata,
                linked_sections := secs,
                original_path := (([⟨"p", JVal.obj [],
                  [.text "t", .code "c" "" (JVal.obj [])], none⟩] :
                  List ParsedDoc).get ⟨i, hi⟩).path,
                model := "m" }
         | .error _ =>
            ctx'.linked_documents.get ⟨i, hi'⟩ =
              .original (([⟨"p", JVal.obj [],
                [.text "t", .code "c" "" (JVal.obj [])], none⟩] :
                List ParsedDoc).get ⟨i, hi⟩))) ∧
      ∃ st, ctx'.semantic_linking_stats = some st ∧
        st.successful_documents = 0 :=
  run_isolates_service_failure "m" (fun _ => .error ())
    ⟨[⟨"p", JVal.obj [], [.text "t", .code "c" "" (JVal.obj [])], none⟩],
     [], none, none⟩
    (fun _ => rfl) (by intro doc hd; simp at hd; simp [hd]) (by simp)

end SemanticLinkingAgent

namespace SemanticLinkingAgent

/-- C1: evaluation of `run` on the repository's own test fixture with a
well-formed service response.  The produced output document carries one
linked section with populated `semantic_links`, yet the statistics report
`successful_documents = 0` and `failed_documents = 1`, because the counter
tests the `"semantic_links"` key on the output document dict, which
`process_document` never sets (the links live inside `linked_sections`).
The repository's `test_run_pipeline` asserts `successful_documents == 1` on
exactly this input, so the code contradicts its own test. -/
theorem stats_ignore_linked_sections :
    run "gpt-4" alwaysConcepts sampleCtx = .ok
      { parsed_documents := [sampleDoc],
        linked_documents := [.processed
          ⟨JVal.obj [], [sampleLinkedSection], "test/doc1.md", "gpt-4"⟩],
        semantic_linking_completed := some true,
        semantic_linking_stats := some ⟨1, 0, 1, "gpt-4"⟩ } ∧
    sampleLinkedSection.semantic_links.isSome = true :=
  ⟨rfl, rfl⟩

end SemanticLinkingAgent

namespace ParsingAgent

@[simp] theorem DocumentSection.level_mk (t : String) (lv : Nat) (c : String)
    (cbs : List CodeBlock) (subs : List DocumentSection) (m : JVal) (sl el : Nat) :
    (DocumentSection.mk t lv c cbs subs m sl el).level = lv := rfl

/-- A strictly increasing open chain collapses to a level-correct tree. -/
theorem spineTree_levelsOk (spine : List FlatSec) (h : LevelChain spine) :
    ∀ s ∈ spineTree spine, LevelsOk s := by
  induction spine with
  | nil => simp [spineTree]
  | cons f rest ih =>
      intro s hs
      simp only [spineTree, List.mem_singleton] at hs
      subst hs
      refine LevelsOk.mk _ _ _ _ _ _ _ _ ?_ ?_
      · intro child hc
        cases rest with
        | nil => simp [spineTree] at hc
        | cons g rest2 =>
            simp only [spineTree, List.mem_singleton] at hc
            subst hc
            simpa using (List.chain'_cons.mp h).1
      · intro child hc
        exact ih (List.Chain'.tail h) child hc

theorem modifyLast_map_level (g : FlatSec → FlatSec)
    (hg : ∀ f, (g f).level = f.level) :
    ∀ l : List FlatSec, (modifyLast g l).map FlatSec.level = l.map FlatSec.level := by
  intro l
  induction l with
  | nil => rfl
  | cons f rest ih =>
      cases rest with
      | nil => simp [modifyLast, hg]
      | cons f2 rest2 =>
          simp only [modifyLast, List.map_cons] at ih ⊢
          rw [ih]

theorem LevelChain_modifyLast (g : FlatSec → FlatSec)
    (hg : ∀ f, (g f).level = f.level) (l : List FlatSec)
    (h : LevelChain l) : LevelChain (modifyLast g l) := by
  have h' : List.Chain' (· < ·) (l.map FlatSec.level) :=
    (List.chain'_map _).mpr h
  rw [← modifyLast_map_level g hg l] at h'
  exact (List.chain'_map _).mp h'

/-- Every loop iteration of the reducer preserves the invariant. -/
theorem step_inv (st : PState) (tag : Tag) (h : Inv st) : Inv (step st tag) := by
  obtain ⟨hsec, hsp⟩ := h
  have hclose : ∀ fs : FlatSec,
      Inv ⟨st.sections ++ spineTree st.spine, [fs]⟩ := by
    intro fs
    constructor
    · intro s hs
      rcases List.mem_append.mp hs with hs | hs
      · exact hsec s hs
      · exact spineTree_levelsOk st.spine hsp s hs
    · exact List.chain'_singleton _
  cases tag with
  | heading lv title =>
      simp only [step]
      rcases hlast : st.spine.getLast? with _ | cur
      · exact hclose _
      · by_cases hle : lv ≤ cur.level
        · simpa [hle] using hclose _
        · simp only [hle, if_false]
          refine ⟨hsec, ?_⟩
          refine List.Chain'.append hsp (List.chain'_singleton _) ?_
          intro x hx y hy
          simp only [List.head?_cons, Option.mem_some_iff] at hy
          rw [hlast, Option.mem_some_iff] at hx
          subst hx
          subst hy
          simpa using Nat.lt_of_not_le hle
  | pre lang code =>
      refine ⟨hsec, ?_⟩
      simp only [step]
      exact LevelChain_modifyLast
        (fun f => { f with code_blocks := f.code_blocks ++ [⟨lang, code⟩] })
        (fun f => rfl) _ hsp
  | p text =>
      refine ⟨hsec, ?_⟩
      simp only [step]
      refine LevelChain_modifyLast _ ?_ _ hsp
      intro f
      by_cases ht : text.isEmpty <;> simp [ht]

theorem foldl_inv (tags : List Tag) : ∀ st, Inv st → Inv (tags.foldl step st) := by
  induction tags with
  | nil => intro st h; exact h
  | cons t rest ih => intro st h; exact ih _ (step_inv st t h)

/-- C9: every tree of the reduced section forest satisfies the level
invariant: at the moment a child is attached, its level is strictly greater
than its parent's.  (The forest is represented by an inductive tree type, in
which every node is owned by exactly one parent or is top-level by
construction, so acyclicity holds by the representation.) -/
theorem reducer_level_invariant (tags : List Tag) :
    ∀ s ∈ extract_sections tags, LevelsOk s := by
  intro s hs
  have hinv : Inv (tags.foldl step ⟨[], []⟩) :=
    foldl_inv tags ⟨[], []⟩ ⟨by simp, List.chain'_nil⟩
  obtain ⟨hsec, hsp⟩ := hinv
  simp only [extract_sections] at hs
  rcases List.mem_append.mp hs with hs | hs
  · exact hsec s hs
  · exact spineTree_levelsOk _ hsp s hs

/-- Witness: the forest of the stream H1 "A", H2 "B" — one tree, with "B"
attached below "A" — satisfies the level invariant. -/
theorem reducer_level_invariant_witness :
    LevelsOk (.mk "A" 1 "" [] [.mk "B" 2 "" [] [] (JVal.obj []) 0 0]
      (JVal.obj []) 0 0) := by
  apply reducer_level_invariant [.heading 1 "A", .heading 2 "B"]
  exact List.mem_singleton_self _

/-- C2 (divergence of the code from the mandated behaviour): on the
skip-level stream H1 "A", H3 "B", H2 "C" the reducer compares only against
the single current section ("B", level 3) and therefore emits "C" as a new
top-level root, instead of attaching it to the nearest open ancestor of
smaller level ("A", level 1). -/
theorem skip_level_heading_goes_top_level :
    extract_sections [.heading 1 "A", .heading 3 "B", .heading 2 "C"] =
      [.mk "A" 1 "" [] [.mk "B" 3 "" [] [] (JVal.obj []) 0 0] (JVal.obj []) 0 0,
       .mk "C" 2 "" [] [] (JVal.obj []) 0 0] := rfl

end ParsingAgent
